import Mathlib

/-!
Verification development for the `feathers_inspector` repository: the
generic object-inspection and path-addressed edit pipeline.

Embedding conventions.
* Rust `f32`/`f64` values are embedded as exact rationals (`ℚ`); float
  arithmetic is modelled exactly.  Rust's saturating, truncating float→int
  `as` casts are modelled explicitly on `ℚ`/`ℤ`/`ℕ`.
* Machine integers are `ℤ`/`ℕ`; the i32/i64/u32/u64 range invariants that
  Rust enforces by typing are expressed by the `WellFormed` predicates.
* `TypeId` is embedded as the type's path string (distinct Rust types have
  distinct type paths), so one string plays the role of both
  `TypeId` and `TypeInfo::type_path()`.
* A Bevy `dyn PartialReflect` value is embedded as the inductive
  `ReflectValue`, one constructor per `ReflectRef`/`ReflectMut` shape the
  inspector code distinguishes.  Numeric opaque scalars (the six kinds the
  code downcasts to) get their own constructor `num`; every other opaque
  value is `prim` carrying its Rust `Debug` rendering.
* In-place mutation through `&mut dyn PartialReflect` is embedded by
  returning the updated value: the Rust functions that mutate and return
  `bool` become functions returning `Bool × ReflectValue` (the flag and the
  value the component holds afterwards).
-/

namespace FeathersInspector

/-- The six numeric kinds recognized by `try_extract_numeric` and
`apply_value_to_partial_reflect` (src/inspector/panels/detail_panel.rs,
src/inspector/widgets/drag_value.rs). -/
inductive NumericKind where
  | f32
  | f64
  | i32
  | i64
  | u32
  | u64
deriving DecidableEq, Repr

/-- Source `FieldPathSegment` from src/inspector/widgets/drag_value.rs: a segment in
a field path, either a named struct field or an indexed tuple/array field. -/
inductive FieldPathSegment where
  | Named (name : String)
  | Index (idx : Nat)
deriving DecidableEq, Repr

mutual
/-- Embedding of a Bevy reflected value (`dyn PartialReflect`), one
constructor per shape the inspector distinguishes via
`reflect_ref`/`reflect_mut`.  `typePath` is the represented type's path
(`get_represented_type_info().type_path()`, also standing for its `TypeId`),
`none` when the value has no represented type info.  Collections are carried
as their length only, which is all `format_simple_value` reads of them.
`prim` is a non-numeric `ReflectRef::Opaque` scalar (bool, char, String, …)
carrying its `Debug` rendering. -/
inductive ReflectValue where
  | num (kind : NumericKind) (val : ℚ)
  | prim (dbg : String)
  | struct (typePath : Option String) (fields : List (String × ReflectValue))
  | tupleStruct (typePath : Option String) (fields : List ReflectValue)
  | tuple (typePath : Option String) (fields : List ReflectValue)
  | enum (typePath : Option String) (variantName : String) (payload : VariantPayload)
  | list (len : Nat)
  | array (len : Nat)
  | map (len : Nat)
  | set (len : Nat)

/-- The payload shape of an enum's active variant (`VariantType` together
with the variant's fields, as read through `field_len`/`field_at`/`name_at`). -/
inductive VariantPayload where
  | unit
  | tupleFields (fields : List ReflectValue)
  | structFields (fields : List (String × ReflectValue))
end

/-- Truncation toward zero, the rounding used by Rust's float→int `as` casts. -/
def truncTowardZero (q : ℚ) : ℤ :=
  if 0 ≤ q then ⌊q⌋ else ⌈q⌉

/-- Rust `as i32` applied to an f64: truncate toward zero, saturating at the
i32 range. -/
def castToI32 (q : ℚ) : ℤ :=
  max (-(2 ^ 31)) (min (2 ^ 31 - 1) (truncTowardZero q))

/-- Rust `as i64` applied to an f64: truncate toward zero, saturating at the
i64 range. -/
def castToI64 (q : ℚ) : ℤ :=
  max (-(2 ^ 63)) (min (2 ^ 63 - 1) (truncTowardZero q))

/-- Rust `as u32` applied to an f64: truncate toward zero, saturating at the
u32 range (negative inputs saturate to 0). -/
def castToU32 (q : ℚ) : ℕ :=
  (max 0 (min (2 ^ 32 - 1) (truncTowardZero q))).toNat

/-- Rust `as u64` applied to an f64: truncate toward zero, saturating at the
u64 range (negative inputs saturate to 0). -/
def castToU64 (q : ℚ) : ℕ :=
  (max 0 (min (2 ^ 64 - 1) (truncTowardZero q))).toNat

/-- Rust `as f32` applied to an f64.  Under the exact-rational embedding of
floats this conversion is value-preserving. -/
def castToF32 (q : ℚ) : ℚ := q

/-- Source `apply_value_to_partial_reflect` (src/inspector/widgets/drag_value.rs,
lines 334–372): attempt `try_downcast_mut` into f32, f64, i32, i64, u32, u64
in that order, write the converted value into the first that matches and
return `true`; return `false` when none matches.  The result pair is (the
returned `bool`, the value the target holds afterwards); every failing
branch leaves the value untouched. -/
def applyValueToPartialReflect (reflected : ReflectValue) (newValue : ℚ) :
    Bool × ReflectValue :=
  match reflected with
  | .num .f32 _ => (true, .num .f32 (castToF32 newValue))
  | .num .f64 _ => (true, .num .f64 newValue)
  | .num .i32 _ => (true, .num .i32 ((castToI32 newValue : ℤ) : ℚ))
  | .num .i64 _ => (true, .num .i64 ((castToI64 newValue : ℤ) : ℚ))
  | .num .u32 _ => (true, .num .u32 ((castToU32 (max newValue 0) : ℕ) : ℚ))
  | .num .u64 _ => (true, .num .u64 ((castToU64 (max newValue 0) : ℕ) : ℚ))
  | other => (false, other)

mutual
/-- Source `set_field_value_recursive` (src/inspector/widgets/drag_value.rs, lines
291–331): navigate a field path and set the value using reflection.  The
Rust function mutates through `&mut dyn PartialReflect` and returns `true`
on success, `false` on failure; here the pair is (that `bool`, the value of
the navigated component afterwards). -/
def setFieldValueRecursive (reflected : ReflectValue)
    (path : List FieldPathSegment) (newValue : ℚ) : Bool × ReflectValue :=
  match path with
  | [] => applyValueToPartialReflect reflected newValue
  | segment :: remaining =>
    match reflected, segment with
    | .struct tp fields, .Named name =>
      let r := setStructField fields name remaining newValue
      (r.1, .struct tp r.2)
    | .tupleStruct tp fields, .Index idx =>
      let r := setIndexedField fields idx remaining newValue
      (r.1, .tupleStruct tp r.2)
    | .tuple tp fields, .Index idx =>
      let r := setIndexedField fields idx remaining newValue
      (r.1, .tuple tp r.2)
    | other, _ => (false, other)

/-- Bevy `Struct::field_mut(name)` followed by the recursive call: the first
field with the given name is navigated into; a missing name fails. -/
def setStructField (fields : List (String × ReflectValue)) (name : String)
    (path : List FieldPathSegment) (newValue : ℚ) :
    Bool × List (String × ReflectValue) :=
  match fields with
  | [] => (false, [])
  | (n, v) :: rest =>
    if n = name then
      let r := setFieldValueRecursive v path newValue
      (r.1, (n, r.2) :: rest)
    else
      let r := setStructField rest name path newValue
      (r.1, (n, v) :: r.2)

/-- Bevy `TupleStruct::field_mut(idx)` or `Tuple::field_mut(idx)` followed by the
recursive call: an out-of-range index fails. -/
def setIndexedField (fields : List ReflectValue) (idx : Nat)
    (path : List FieldPathSegment) (newValue : ℚ) :
    Bool × List ReflectValue :=
  match fields, idx with
  | [], _ => (false, [])
  | v :: rest, 0 =>
    let r := setFieldValueRecursive v path newValue
    (r.1, r.2 :: rest)
  | v :: rest, Nat.succ i =>
    let r := setIndexedField rest i path newValue
    (r.1, v :: r.2)
end

/-- Rust's `as f64` conversion of an i64/u64 integer value: an f64 has a
53-bit significand, so the conversion rounds to the nearest representable
double, ties to even.  Integers of magnitude at most `2 ^ 53` are exactly
representable and unchanged; above that, the magnitude is rounded to a
multiple of `2 ^ k` where `k = log2 |n| − 52`, half-way cases going to the
even multiple. -/
def f64RoundInt (n : ℤ) : ℤ :=
  let a := n.natAbs
  if a ≤ 2 ^ 53 then n
  else
    let k := a.log2 - 52
    let q := a / 2 ^ k
    let r := a % 2 ^ k
    let rounded :=
      if 2 * r < 2 ^ k then q
      else if 2 ^ k < 2 * r then q + 1
      else if q % 2 = 0 then q else q + 1
    if 0 ≤ n then ((rounded * 2 ^ k : ℕ) : ℤ)
    else -((rounded * 2 ^ k : ℕ) : ℤ)

/-- Source `try_extract_numeric` (src/inspector/panels/detail_panel.rs, lines
413–439): try `try_downcast_ref` into f32, f64, i32, i64, u32, u64 in that
order and return the value `as f64`.  Exactly the `num` constructor carries
one of the six kinds.  The f32→f64 and i32/u32→f64 conversions are always
exact (every f32 and every 32-bit integer is f64-representable); the
i64/u64→f64 conversions round to the nearest double (`f64RoundInt`), which
loses information for magnitudes above `2 ^ 53`. -/
def tryExtractNumeric (reflected : ReflectValue) : Option ℚ :=
  match reflected with
  | .num .f32 val => some val
  | .num .f64 val => some val
  | .num .i32 val => some val
  | .num .i64 val => some ((f64RoundInt val.num : ℤ) : ℚ)
  | .num .u32 val => some val
  | .num .u64 val => some ((f64RoundInt val.num : ℤ) : ℚ)
  | _ => none

/-- The Rust `Debug` rendering of a numeric scalar, under the rational
embedding: floating kinds print with a decimal part, integer kinds print
their integer.  (Non-terminating binary expansions cannot arise from real
float values; they are printed as fractions.) -/
def numericDebugString (kind : NumericKind) (val : ℚ) : String :=
  match kind with
  | .f32 | .f64 =>
    if val.den = 1 then toString val.num ++ ".0"
    else toString val.num ++ "/" ++ toString val.den
  | _ => toString val.num

mutual
/-- Source `format_simple_value` (src/inspector/panels/detail_panel.rs, lines
442–463): format a value as a simple string, `none` for complex types.
Struct/TupleStruct/Enum are complex; a tuple of at most 4 fields is shown
inline when every field formats simply; collections show their size;
`ReflectRef::Opaque` scalars show their `Debug` rendering. -/
def formatSimpleValue (reflected : ReflectValue) : Option String :=
  match reflected with
  | .struct _ _ => none
  | .tupleStruct _ _ => none
  | .enum _ _ _ => none
  | .tuple _ fields =>
    if fields.length ≤ 4 then
      let parts := formatTupleParts fields
      if parts.length = fields.length then
        some ("(" ++ String.intercalate ", " parts ++ ")")
      else none
    else none
  | .list n => some ("[" ++ toString n ++ " items]")
  | .array n => some ("[" ++ toString n ++ " items]")
  | .map n => some ("\x7b" ++ toString n ++ " entries\x7d")
  | .set n => some ("\x7b" ++ toString n ++ " items\x7d")
  | .num kind val => some (numericDebugString kind val)
  | .prim dbg => some dbg

/-- The `filter_map(format_simple_value)` over a tuple's fields. -/
def formatTupleParts (fields : List ReflectValue) : List String :=
  match fields with
  | [] => []
  | v :: rest =>
    match formatSimpleValue v with
    | some s => s :: formatTupleParts rest
    | none => formatTupleParts rest
end

/-- Source `SemanticFieldNames` (src/inspector/semantic_names.rs): registry mapping
TypeIds (embedded as type-path strings) to semantic field names for tuple
structs. -/
structure SemanticFieldNames where
  overrides : List (String × List String)
deriving DecidableEq, Repr

/-- Source `SemanticFieldNames::get_field_name` (src/inspector/semantic_names.rs,
lines 68–70): the semantic name for a tuple struct field, `none` if the
type has no registered override or the index is out of bounds. -/
def SemanticFieldNames.getFieldName (r : SemanticFieldNames)
    (typeId : String) (index : Nat) : Option String :=
  (r.overrides.lookup typeId).bind fun names => names.get? index

/-- Source `SemanticFieldNames::new` (src/inspector/semantic_names.rs, lines
27–56): the registry pre-populated with the common Bevy math types, keyed
here by the glam type paths that embed their TypeIds. -/
def SemanticFieldNames.new : SemanticFieldNames :=
  { overrides :=
    [ ("glam::Vec2", ["x", "y"])
    , ("glam::Vec3", ["x", "y", "z"])
    , ("glam::Vec4", ["x", "y", "z", "w"])
    , ("glam::IVec2", ["x", "y"])
    , ("glam::IVec3", ["x", "y", "z"])
    , ("glam::IVec4", ["x", "y", "z", "w"])
    , ("glam::UVec2", ["x", "y"])
    , ("glam::UVec3", ["x", "y", "z"])
    , ("glam::UVec4", ["x", "y", "z", "w"])
    , ("glam::DVec2", ["x", "y"])
    , ("glam::DVec3", ["x", "y", "z"])
    , ("glam::DVec4", ["x", "y", "z", "w"])
    , ("glam::Quat", ["x", "y", "z", "w"]) ] }

/-- Bevy `ShortName::from(type_path)` for the plain (non-generic) type paths
appearing in this development: the last `::`-separated segment. -/
def shortNameAux (chars : List Char) (current : List Char) : List Char :=
  match chars with
  | [] => current.reverse
  | c :: rest =>
    if c = ':' then shortNameAux rest []
    else shortNameAux rest (c :: current)

/-- See `shortNameAux`. -/
def shortName (typePath : String) : String :=
  ⟨shortNameAux typePath.toList []⟩

/-- The represented type path of a value
(`get_represented_type_info().type_path()`, also standing for its TypeId).
Values of the remaining shapes always format simply, so traversal never
consults their type info. -/
def typePathOf (reflected : ReflectValue) : Option String :=
  match reflected with
  | .struct tp _ => tp
  | .tupleStruct tp _ => tp
  | .tuple tp _ => tp
  | .enum tp _ _ => tp
  | _ => none

/-- Source `EditableFieldInfo` (src/inspector/panels/detail_panel.rs): the numeric
value (as f64) and the path segments to reach an editable field from the
component root. -/
structure EditableFieldInfo where
  numericValue : ℚ
  path : List FieldPathSegment
deriving DecidableEq, Repr

/-- Source `ReflectedField` (src/inspector/panels/detail_panel.rs): one display
row extracted from a reflected component.  `indent` is a `u8` in the
source; traversal only ever increments it by one per nesting level, so it
is embedded as `ℕ`. -/
structure ReflectedField where
  name : String
  value : String
  indent : Nat
  editable : Option EditableFieldInfo
deriving DecidableEq, Repr

/-- The rows the `VariantType::Tuple` arm of `extract_fields_from_reflect`
pushes: one row per payload field that formats simply, labeled `.{i}` by
the field's index, indented one level, never editable. -/
def extractEnumTupleRows (fields : List ReflectValue) (i : Nat)
    (indent : Nat) : List ReflectedField :=
  match fields with
  | [] => []
  | v :: rest =>
    (match formatSimpleValue v with
     | some val =>
       [{ name := "." ++ toString i, value := val, indent := indent + 1,
          editable := none }]
     | none => []) ++ extractEnumTupleRows rest (i + 1) indent

/-- The rows the `VariantType::Struct` arm of `extract_fields_from_reflect`
pushes: one row per payload field that formats simply, labeled by the
field's name, indented one level, never editable. -/
def extractEnumStructRows (fields : List (String × ReflectValue))
    (indent : Nat) : List ReflectedField :=
  match fields with
  | [] => []
  | (n, v) :: rest =>
    (match formatSimpleValue v with
     | some val =>
       [{ name := n, value := val, indent := indent + 1, editable := none }]
     | none => []) ++ extractEnumStructRows rest indent

/-- The rows the `ReflectRef::Enum` arm of `extract_fields_from_reflect`
pushes after the `variant` row. -/
def extractEnumPayloadRows (payload : VariantPayload) (indent : Nat) :
    List ReflectedField :=
  match payload with
  | .unit => []
  | .tupleFields fields => extractEnumTupleRows fields 0 indent
  | .structFields fields => extractEnumStructRows fields indent

mutual
/-- Source `extract_fields_from_reflect` (src/inspector/panels/detail_panel.rs,
lines 236–409): extract fields from a reflected value into a flat list of
label/value rows, tracking the path to each field for write-back.  The Rust
function appends to a `&mut Vec`; the embedding returns the rows it pushes,
in order. -/
def extractFieldsFromReflect (reflected : ReflectValue) (indent : Nat)
    (semanticNames : SemanticFieldNames)
    (currentPath : List FieldPathSegment) : List ReflectedField :=
  match reflected with
  | .struct _ fields =>
    extractStructFields fields indent semanticNames currentPath
  | .tupleStruct tp fields =>
    extractTupleStructFields tp fields 0 indent semanticNames currentPath
  | .enum _ variantName payload =>
    { name := "variant", value := variantName, indent := indent,
      editable := none } :: extractEnumPayloadRows payload indent
  | other =>
    match formatSimpleValue other with
    | some val =>
      [{ name := "value", value := val, indent := indent, editable := none }]
    | none => []

/-- The `ReflectRef::Struct` arm: for each named field, extend the path
with `Named(name)`, attach edit info when the field is numeric, and either
render it inline (simple value) or push a `[TypeName]` header row and
recurse one indent level deeper. -/
def extractStructFields (fields : List (String × ReflectValue))
    (indent : Nat) (semanticNames : SemanticFieldNames)
    (currentPath : List FieldPathSegment) : List ReflectedField :=
  match fields with
  | [] => []
  | (fieldName, fieldValue) :: rest =>
    let fieldPath := currentPath ++ [FieldPathSegment.Named fieldName]
    let editable := (tryExtractNumeric fieldValue).map fun n =>
      { numericValue := n, path := fieldPath : EditableFieldInfo }
    (match formatSimpleValue fieldValue with
     | some val =>
       [{ name := fieldName, value := val, indent := indent,
          editable := editable }]
     | none =>
       let typeName := ((typePathOf fieldValue).map shortName).getD "?"
       { name := fieldName, value := "[" ++ typeName ++ "]",
         indent := indent, editable := none } ::
       extractFieldsFromReflect fieldValue (indent + 1) semanticNames
         fieldPath) ++
    extractStructFields rest indent semanticNames currentPath

/-- The `ReflectRef::TupleStruct` arm: for each index `i`, extend the path
with `Index(i)`, label the row by the semantic-name overlay for
(the tuple struct's own TypeId, `i`) falling back to `.{i}`, and render
inline or push a header row and recurse, as for structs. -/
def extractTupleStructFields (typeId : Option String)
    (fields : List ReflectValue) (i : Nat) (indent : Nat)
    (semanticNames : SemanticFieldNames)
    (currentPath : List FieldPathSegment) : List ReflectedField :=
  match fields with
  | [] => []
  | fieldValue :: rest =>
    let fieldPath := currentPath ++ [FieldPathSegment.Index i]
    let editable := (tryExtractNumeric fieldValue).map fun n =>
      { numericValue := n, path := fieldPath : EditableFieldInfo }
    let fieldName :=
      ((typeId.bind fun tid => semanticNames.getFieldName tid i).getD
        ("." ++ toString i))
    (match formatSimpleValue fieldValue with
     | some val =>
       [{ name := fieldName, value := val, indent := indent,
          editable := editable }]
     | none =>
       let typeName := ((typePathOf fieldValue).map shortName).getD "?"
       { name := fieldName, value := "[" ++ typeName ++ "]",
         indent := indent, editable := none } ::
       extractFieldsFromReflect fieldValue (indent + 1) semanticNames
         fieldPath) ++
    extractTupleStructFields typeId rest (i + 1) indent semanticNames
      currentPath
end

/-- Source `FieldPath` (src/inspector/widgets/drag_value.rs): how to locate a field
within a component for write-back.  `Entity` is embedded as `ℕ` and the
component's `TypeId` as its type-path string. -/
structure FieldPath where
  entity : Nat
  componentTypeId : String
  path : List FieldPathSegment
deriving DecidableEq, Repr

/-- The `DragValue` widget component (src/inspector/widgets/drag_value.rs):
field path for write-back plus drag/display configuration. -/
structure DragValue where
  fieldPath : FieldPath
  dragSpeed : ℚ
  precision : Nat
  min : Option ℚ
  max : Option ℚ
deriving DecidableEq, Repr

/-- Source `DragValueDragState` (src/inspector/widgets/drag_value.rs): per-widget
interaction state.  `Instant` timestamps are embedded as rationals. -/
structure DragValueDragState where
  dragging : Bool
  startValue : ℚ
  editing : Bool
  editBuffer : String
  lastClickTime : Option ℚ
  originalValue : ℚ
deriving DecidableEq, Repr

/-- Source `DragValueChanged` (src/inspector/widgets/drag_value.rs): the change
event a widget emits, carrying the field path and new value for
write-back. -/
structure DragValueChanged where
  source : Nat
  fieldPath : FieldPath
  newValue : ℚ
deriving DecidableEq, Repr

/-- Source `drag_value_on_drag` (src/inspector/widgets/drag_value.rs, lines
228–260): on a pointer drag event over the widget `entity`, when the state
is dragging, emit a `DragValueChanged` whose value is
`start_value + distance.x * drag_speed` clamped below by `min` and above by
`max` when configured; when not dragging, emit nothing. -/
def dragValueOnDrag (entity : Nat) (dragValue : DragValue)
    (dragState : DragValueDragState) (deltaX : ℚ) :
    Option DragValueChanged :=
  if dragState.dragging then
    let deltaValue := deltaX * dragValue.dragSpeed
    let newValue := dragState.startValue + deltaValue
    let newValue :=
      match dragValue.min with
      | some m => max newValue m
      | none => newValue
    let newValue :=
      match dragValue.max with
      | some m => min newValue m
      | none => newValue
    some { source := entity, fieldPath := dragValue.fieldPath,
           newValue := newValue }
  else none

/-- The logical keys `drag_value_on_keyboard_input` distinguishes. -/
inductive Key where
  | Enter
  | Escape
  | Backspace
  | Character (s : String)
  | Other
deriving DecidableEq, Repr

/-- The content of a widget's `Text` child.  The Rust code renders text
through `format!`; the two formatting shapes this widget writes are kept as
constructors instead of rendered characters: `formattedValue v prec` is
`format!("{:.prec$}", v)` and `bufferWithCursor b` is `format!("{}|", b)`. -/
inductive RenderedText where
  | formattedValue (value : ℚ) (precision : Nat)
  | bufferWithCursor (buffer : String)
deriving DecidableEq, Repr

/-- The observable outcome of one keyboard event on a widget: the widget's
drag state, the contents of its `Text` children, the `InputFocus` resource,
and the `DragValueChanged` events triggered. -/
structure KeyboardOutcome where
  dragState : DragValueDragState
  texts : List RenderedText
  inputFocus : Option Nat
  emitted : List DragValueChanged
deriving DecidableEq, Repr

/-- Source `exit_edit_mode` (src/inspector/widgets/drag_value.rs, lines 470–483):
leave editing, clear the edit buffer and clear input focus.  It also
triggers `DragValueEditModeChanged { editing: false }`, whose deferred
display observer parses the (already cleared) edit buffer and therefore
changes no text. -/
def exitEditMode (dragState : DragValueDragState) :
    DragValueDragState × Option Nat :=
  ({ dragState with editing := false, editBuffer := "" }, none)

/-- Source `drag_value_on_keyboard_input` (src/inspector/widgets/drag_value.rs,
lines 386–467): handle one keyboard event delivered to the focused widget
`entity` while its state and `Text` children are as given.  `parse` stands
for Rust's `str::parse::<f64>`; `pressed` is whether the key event is a
press.  Enter commits the parsed, clamped buffer as a change event and
exits edit mode; Escape rewrites every `Text` child to the formatted
original value and exits edit mode without emitting; Backspace drops the
buffer's last character; a character is appended only when all its
characters are digits, `.`, `-`, `+`, `e` or `E`. -/
def dragValueOnKeyboardInput (parse : String → Option ℚ) (entity : Nat)
    (dragValue : DragValue) (dragState : DragValueDragState)
    (texts : List RenderedText) (inputFocus : Option Nat) (key : Key)
    (pressed : Bool) : KeyboardOutcome :=
  if ¬ pressed then
    { dragState := dragState, texts := texts, inputFocus := inputFocus,
      emitted := [] }
  else if ¬ dragState.editing then
    { dragState := dragState, texts := texts, inputFocus := inputFocus,
      emitted := [] }
  else
    match key with
    | .Enter =>
      let emitted :=
        match parse dragState.editBuffer with
        | some newValue =>
          let constrained :=
            match dragValue.min with
            | some m => max newValue m
            | none => newValue
          let constrained :=
            match dragValue.max with
            | some m => min constrained m
            | none => constrained
          [{ source := entity, fieldPath := dragValue.fieldPath,
             newValue := constrained }]
        | none => []
      let r := exitEditMode dragState
      { dragState := r.1, texts := texts, inputFocus := r.2,
        emitted := emitted }
    | .Escape =>
      let texts2 := texts.map fun _ =>
        RenderedText.formattedValue dragState.originalValue
          dragValue.precision
      let r := exitEditMode dragState
      { dragState := r.1, texts := texts2, inputFocus := r.2, emitted := [] }
    | .Backspace =>
      let buffer2 := dragState.editBuffer.dropRight 1
      { dragState := { dragState with editBuffer := buffer2 },
        texts := texts.map fun _ => RenderedText.bufferWithCursor buffer2,
        inputFocus := inputFocus, emitted := [] }
    | .Character c =>
      let valid := c.all fun ch =>
        ch.isDigit || ch == '.' || ch == '-' || ch == 'e' || ch == 'E' ||
          ch == '+'
      if valid then
        let buffer2 := dragState.editBuffer ++ c
        { dragState := { dragState with editBuffer := buffer2 },
          texts := texts.map fun _ => RenderedText.bufferWithCursor buffer2,
          inputFocus := inputFocus, emitted := [] }
      else
        { dragState := dragState, texts := texts, inputFocus := inputFocus,
          emitted := [] }
    | .Other =>
      { dragState := dragState, texts := texts, inputFocus := inputFocus,
        emitted := [] }

/-- One component of the ECS world's store: an entity, a component type
(TypeId as type path) and the component's reflected value. -/
structure StoredComponent where
  entity : Nat
  componentTypeId : String
  value : ReflectValue

/-- The part of the world `apply_pending_value_changes` touches: the stored
components. -/
abbrev Store := List StoredComponent

/-- Modelled from the spec: `get_reflected_component_mut` lives in the
repository's `reflection_tools` module, which is not among the provided
sources.  Spec §6 gives the store-accessor contract
`get_reflected_component_mut(id, type_id) -> Result<&mut ReflectedValue>`:
resolve the entity and the component named by the TypeId on it, failing
when either is absent.  The first matching stored component is returned. -/
def getReflectedComponentMut (world : Store) (entity : Nat)
    (typeId : String) : Option ReflectValue :=
  (world.find? fun c =>
    c.entity == entity && c.componentTypeId == typeId).map
    fun c => c.value

/-- Writing through the `Mut` borrow returned by
`get_reflected_component_mut`: the first stored component matching the
entity and TypeId now holds `v`. -/
def setStoredComponent (world : Store) (entity : Nat) (typeId : String)
    (v : ReflectValue) : Store :=
  match world with
  | [] => []
  | c :: rest =>
    if c.entity == entity && c.componentTypeId == typeId then
      { c with value := v } :: rest
    else c :: setStoredComponent rest entity typeId v

/-- One iteration of the loop in `apply_pending_value_changes`
(src/inspector/widgets/drag_value.rs, lines 526–545): resolve the change's
component; when found, run `set_field_value_recursive` through the mutable
borrow — the component afterwards holds the returned value, and a `warn!`
(with no further effect) is logged when the returned flag is `false`; when
the component is not found, nothing happens. -/
def applyOneChange (world : Store) (change : DragValueChanged) : Store :=
  match getReflectedComponentMut world change.fieldPath.entity
      change.fieldPath.componentTypeId with
  | none => world
  | some reflected =>
    let r := setFieldValueRecursive reflected change.fieldPath.path
      change.newValue
    setStoredComponent world change.fieldPath.entity
      change.fieldPath.componentTypeId r.2

/-- Source `apply_pending_value_changes` (src/inspector/widgets/drag_value.rs,
lines 519–546): drain the queued changes and apply each in order. -/
def applyPendingValueChanges (world : Store)
    (changes : List DragValueChanged) : Store :=
  changes.foldl applyOneChange world

/-- The range/integrality invariant Rust's typing gives a numeric value of
each kind: integer kinds hold integers of their machine range, floating
kinds are unrestricted under the exact-rational embedding. -/
def wellFormedNumericB (kind : NumericKind) (v : ℚ) : Bool :=
  match kind with
  | .f32 => true
  | .f64 => true
  | .i32 => v.den == 1 && decide (-(2 ^ 31) ≤ v.num) && decide (v.num < 2 ^ 31)
  | .i64 => v.den == 1 && decide (-(2 ^ 63) ≤ v.num) && decide (v.num < 2 ^ 63)
  | .u32 => v.den == 1 && decide (0 ≤ v.num) && decide (v.num < 2 ^ 32)
  | .u64 => v.den == 1 && decide (0 ≤ v.num) && decide (v.num < 2 ^ 64)

mutual
/-- A reflected value that can actually arise from a live Rust component:
every numeric leaf satisfies its kind's machine-range invariant and every
struct level has pairwise-distinct field names (both guaranteed by Rust's
type system and `#[derive(Reflect)]`). -/
def wellFormedB (reflected : ReflectValue) : Bool :=
  match reflected with
  | .num kind val => wellFormedNumericB kind val
  | .prim _ => true
  | .struct _ fields =>
    decide ((fields.map Prod.fst).Nodup) && wellFormedNamedB fields
  | .tupleStruct _ fields => wellFormedListB fields
  | .tuple _ fields => wellFormedListB fields
  | .enum _ _ payload => wellFormedPayloadB payload
  | .list _ => true
  | .array _ => true
  | .map _ => true
  | .set _ => true

/-- Conjunction of `wellFormedB` over the values of a named field list. -/
def wellFormedNamedB (fields : List (String × ReflectValue)) : Bool :=
  match fields with
  | [] => true
  | (_, v) :: rest => wellFormedB v && wellFormedNamedB rest

/-- Conjunction of `wellFormedB` over a field list. -/
def wellFormedListB (fields : List ReflectValue) : Bool :=
  match fields with
  | [] => true
  | v :: rest => wellFormedB v && wellFormedListB rest

/-- Conjunction of `wellFormedB` over a variant payload. -/
def wellFormedPayloadB (payload : VariantPayload) : Bool :=
  match payload with
  | .unit => true
  | .tupleFields fields => wellFormedListB fields
  | .structFields fields => wellFormedNamedB fields
end

/-- Whether a numeric value of the given kind survives the value-to-f64
conversion of `try_extract_numeric` exactly: always for f32, f64, i32 and
u32; for i64/u64 when the magnitude is at most `2 ^ 53` (beyond that the
conversion rounds). -/
def f64ExactNumericB (kind : NumericKind) (v : ℚ) : Bool :=
  match kind with
  | .i64 => decide (v.num.natAbs ≤ 2 ^ 53)
  | .u64 => decide (v.num.natAbs ≤ 2 ^ 53)
  | _ => true

mutual
/-- Every numeric leaf of the value is reported exactly by traversal's
value-to-f64 conversion (`f64ExactNumericB` at each leaf). -/
def f64ExactB (reflected : ReflectValue) : Bool :=
  match reflected with
  | .num kind val => f64ExactNumericB kind val
  | .prim _ => true
  | .struct _ fields => f64ExactNamedB fields
  | .tupleStruct _ fields => f64ExactListB fields
  | .tuple _ fields => f64ExactListB fields
  | .enum _ _ payload => f64ExactPayloadB payload
  | .list _ => true
  | .array _ => true
  | .map _ => true
  | .set _ => true

/-- Conjunction of `f64ExactB` over the values of a named field list. -/
def f64ExactNamedB (fields : List (String × ReflectValue)) : Bool :=
  match fields with
  | [] => true
  | (_, v) :: rest => f64ExactB v && f64ExactNamedB rest

/-- Conjunction of `f64ExactB` over a field list. -/
def f64ExactListB (fields : List ReflectValue) : Bool :=
  match fields with
  | [] => true
  | v :: rest => f64ExactB v && f64ExactListB rest

/-- Conjunction of `f64ExactB` over a variant payload. -/
def f64ExactPayloadB (payload : VariantPayload) : Bool :=
  match payload with
  | .unit => true
  | .tupleFields fields => f64ExactListB fields
  | .structFields fields => f64ExactNamedB fields
end

/-- The one-step navigation inside `set_field_value_recursive`'s match on
`(reflect_mut(), segment)`: `Struct::field_mut(name)` (first field with the
name), `TupleStruct::field_mut(idx)`, `Tuple::field_mut(idx)`; every other
shape/segment combination resolves nothing. -/
def stepGet (reflected : ReflectValue) (segment : FieldPathSegment) :
    Option ReflectValue :=
  match reflected, segment with
  | .struct _ fields, .Named name =>
    (fields.find? fun p => p.1 == name).map fun p => p.2
  | .tupleStruct _ fields, .Index idx => fields.get? idx
  | .tuple _ fields, .Index idx => fields.get? idx
  | _, _ => none

/-- A 3-component float vector: glam's `Vec3`, which the inspector reflects
as a tuple struct of three f32 fields. -/
def vec3 (x y z : ℚ) : ReflectValue :=
  .tupleStruct (some "glam::Vec3") [.num .f32 x, .num .f32 y, .num .f32 z]

/-- The spec §8 scenario object: a component whose single field
`translation` is a 3-component float vector. -/
def translationComponent (x y z : ℚ) : ReflectValue :=
  .struct (some "demo::Mover") [("translation", vec3 x y z)]

/-- A failing numeric coercion leaves the target untouched: when
`apply_value_to_partial_reflect` returns `false`, no downcast matched and
nothing was written. -/
theorem applyValueToPartialReflect_fail_eq (v : ReflectValue) (nv : ℚ)
    (h : (applyValueToPartialReflect v nv).1 = false) :
    (applyValueToPartialReflect v nv).2 = v := by
  cases v with
  | num kind val => cases kind <;> simp [applyValueToPartialReflect] at h
  | prim s => rfl
  | struct tp fields => rfl
  | tupleStruct tp fields => rfl
  | tuple tp fields => rfl
  | enum tp vn payload => rfl
  | list n => rfl
  | array n => rfl
  | map n => rfl
  | set n => rfl

/-- The numeric coercion at the terminal node succeeds exactly on the six
recognized numeric kinds. -/
theorem applyValueToPartialReflect_succeeds_iff (v : ReflectValue) (nv : ℚ) :
    (applyValueToPartialReflect v nv).1 = true ↔
      ∃ kind val, v = ReflectValue.num kind val := by
  cases v with
  | num kind val =>
    cases kind <;> simp [applyValueToPartialReflect]
  | prim s => simp [applyValueToPartialReflect]
  | struct tp fields => simp [applyValueToPartialReflect]
  | tupleStruct tp fields => simp [applyValueToPartialReflect]
  | tuple tp fields => simp [applyValueToPartialReflect]
  | enum tp vn payload => simp [applyValueToPartialReflect]
  | list n => simp [applyValueToPartialReflect]
  | array n => simp [applyValueToPartialReflect]
  | map n => simp [applyValueToPartialReflect]
  | set n => simp [applyValueToPartialReflect]

mutual
/-- A failing write leaves the navigated value untouched: the only mutation
site in `set_field_value_recursive` is the terminal coercion, which writes
nothing when it fails. -/
theorem setFieldValueRecursive_fail_eq :
    ∀ (v : ReflectValue) (path : List FieldPathSegment) (nv : ℚ),
      (setFieldValueRecursive v path nv).1 = false →
      (setFieldValueRecursive v path nv).2 = v
  | v, [], nv => fun h => by
    have h2 : (applyValueToPartialReflect v nv).1 = false := by
      simpa [setFieldValueRecursive] using h
    simpa [setFieldValueRecursive] using
      applyValueToPartialReflect_fail_eq v nv h2
  | v, seg :: rest, nv => fun h => by
    cases v with
    | struct tp fields =>
      cases seg with
      | Named name =>
        have h2 : (setStructField fields name rest nv).1 = false := by
          simpa [setFieldValueRecursive] using h
        have h3 := setStructField_fail_eq fields name rest nv h2
        simp [setFieldValueRecursive, h3]
      | Index idx => simp [setFieldValueRecursive]
    | tupleStruct tp fields =>
      cases seg with
      | Named name => simp [setFieldValueRecursive]
      | Index idx =>
        have h2 : (setIndexedField fields idx rest nv).1 = false := by
          simpa [setFieldValueRecursive] using h
        have h3 := setIndexedField_fail_eq fields idx rest nv h2
        simp [setFieldValueRecursive, h3]
    | tuple tp fields =>
      cases seg with
      | Named name => simp [setFieldValueRecursive]
      | Index idx =>
        have h2 : (setIndexedField fields idx rest nv).1 = false := by
          simpa [setFieldValueRecursive] using h
        have h3 := setIndexedField_fail_eq fields idx rest nv h2
        simp [setFieldValueRecursive, h3]
    | num kind val => simp [setFieldValueRecursive]
    | prim s => simp [setFieldValueRecursive]
    | enum tp vn payload => simp [setFieldValueRecursive]
    | list n => simp [setFieldValueRecursive]
    | array n => simp [setFieldValueRecursive]
    | map n => simp [setFieldValueRecursive]
    | set n => simp [setFieldValueRecursive]

/-- As `setFieldValueRecursive_fail_eq`, for the named-field walk. -/
theorem setStructField_fail_eq :
    ∀ (fields : List (String × ReflectValue)) (name : String)
      (path : List FieldPathSegment) (nv : ℚ),
      (setStructField fields name path nv).1 = false →
      (setStructField fields name path nv).2 = fields
  | [], name, path, nv => fun _ => rfl
  | (n, v) :: rest, name, path, nv => fun h => by
    by_cases hn : n = name
    · have h2 : (setFieldValueRecursive v path nv).1 = false := by
        simpa [setStructField, hn] using h
      have h3 := setFieldValueRecursive_fail_eq v path nv h2
      simp [setStructField, hn, h3]
    · have h2 : (setStructField rest name path nv).1 = false := by
        simpa [setStructField, hn] using h
      have h3 := setStructField_fail_eq rest name path nv h2
      simp [setStructField, hn, h3]

/-- As `setFieldValueRecursive_fail_eq`, for the indexed-field walk. -/
theorem setIndexedField_fail_eq :
    ∀ (fields : List ReflectValue) (idx : Nat)
      (path : List FieldPathSegment) (nv : ℚ),
      (setIndexedField fields idx path nv).1 = false →
      (setIndexedField fields idx path nv).2 = fields
  | [], idx, path, nv => fun _ => rfl
  | v :: rest, 0, path, nv => fun h => by
    have h2 : (setFieldValueRecursive v path nv).1 = false := by
      simpa [setIndexedField] using h
    have h3 := setFieldValueRecursive_fail_eq v path nv h2
    simp [setIndexedField, h3]
  | v :: rest, Nat.succ i, path, nv => fun h => by
    have h2 : (setIndexedField rest i path nv).1 = false := by
      simpa [setIndexedField] using h
    have h3 := setIndexedField_fail_eq rest i path nv h2
    simp [setIndexedField, h3]
end

/-- The named-field walk succeeds exactly when `field_mut(name)` resolves a
field (the first with that name) and the rest of the path succeeds on it. -/
theorem setStructField_succeeds_iff
    (fields : List (String × ReflectValue)) (name : String)
    (path : List FieldPathSegment) (nv : ℚ) :
    (setStructField fields name path nv).1 = true ↔
      ∃ fv, (fields.find? fun p => p.1 == name).map (fun p => p.2) =
          some fv ∧ (setFieldValueRecursive fv path nv).1 = true := by
  induction fields with
  | nil => simp [setStructField]
  | cons p rest ih =>
    obtain ⟨n, v⟩ := p
    by_cases hn : n = name
    · subst hn
      simp [setStructField, List.find?_cons_of_pos]
    · have hb : (n == name) = false := by simp [hn]
      simp [setStructField, hn, List.find?_cons_of_neg, hb, ih]

/-- The indexed-field walk succeeds exactly when `field_mut(idx)` is in
range and the rest of the path succeeds on that field. -/
theorem setIndexedField_succeeds_iff (fields : List ReflectValue)
    (idx : Nat) (path : List FieldPathSegment) (nv : ℚ) :
    (setIndexedField fields idx path nv).1 = true ↔
      ∃ fv, fields.get? idx = some fv ∧
        (setFieldValueRecursive fv path nv).1 = true := by
  induction fields generalizing idx with
  | nil => simp [setIndexedField]
  | cons v rest ih =>
    cases idx with
    | zero => simp [setIndexedField]
    | succ i => simp [setIndexedField, ih]

/-- Writing a component's own current value back into the store changes
nothing. -/
theorem setStoredComponent_of_found (world : Store) (entity : Nat)
    (typeId : String) (v : ReflectValue)
    (h : getReflectedComponentMut world entity typeId = some v) :
    setStoredComponent world entity typeId v = world := by
  induction world with
  | nil => simp [getReflectedComponentMut] at h
  | cons c rest ih =>
    by_cases hc : (c.entity == entity && c.componentTypeId == typeId) = true
    · have hv : v = c.value := by
        simp [getReflectedComponentMut, List.find?_cons_of_pos, hc] at h
        exact h.symm
      subst hv
      simp [setStoredComponent, hc]
    · have hfind :
          getReflectedComponentMut rest entity typeId = some v := by
        simpa [getReflectedComponentMut, List.find?_cons_of_neg,
          Bool.not_eq_true, hc] using h
      simp [setStoredComponent, hc, ih hfind]

/-- The terminal coercion succeeds on every numeric leaf, whatever the
applied value. -/
theorem applyValue_num_succeeds (kind : NumericKind) (val nv : ℚ) :
    (applyValueToPartialReflect (.num kind val) nv).1 = true := by
  cases kind <;> rfl

/-- A rational with denominator 1 is its own numerator. -/
theorem intCast_eq_of_den_one (q : ℚ) (h : q.den = 1) : (q.num : ℚ) = q := by
  have h2 := Rat.num_div_den q
  rw [h] at h2
  simpa using h2

/-- Truncation toward zero fixes integers. -/
theorem truncTowardZero_intCast (n : ℤ) :
    truncTowardZero (n : ℚ) = n := by
  unfold truncTowardZero
  split <;> simp

/-- Applying a numeric leaf's own value back to it is the identity: each of
the six kinds' conversions fixes a value that satisfies the kind's machine
range invariant. -/
theorem applyValue_self (kind : NumericKind) (val : ℚ)
    (h : wellFormedNumericB kind val = true) :
    applyValueToPartialReflect (.num kind val) val =
      (true, .num kind val) := by
  cases kind with
  | f32 => rfl
  | f64 => rfl
  | i32 =>
    simp only [wellFormedNumericB, Bool.and_eq_true, beq_iff_eq,
      decide_eq_true_eq] at h
    obtain ⟨⟨hden, hlo⟩, hhi⟩ := h
    have hval := intCast_eq_of_den_one val hden
    have htr : truncTowardZero val = val.num := by
      conv_lhs => rw [← hval]
      exact truncTowardZero_intCast val.num
    have hcast : castToI32 val = val.num := by
      unfold castToI32
      rw [htr]
      omega
    simp [applyValueToPartialReflect, hcast, hval]
  | i64 =>
    simp only [wellFormedNumericB, Bool.and_eq_true, beq_iff_eq,
      decide_eq_true_eq] at h
    obtain ⟨⟨hden, hlo⟩, hhi⟩ := h
    have hval := intCast_eq_of_den_one val hden
    have htr : truncTowardZero val = val.num := by
      conv_lhs => rw [← hval]
      exact truncTowardZero_intCast val.num
    have hcast : castToI64 val = val.num := by
      unfold castToI64
      rw [htr]
      omega
    simp [applyValueToPartialReflect, hcast, hval]
  | u32 =>
    simp only [wellFormedNumericB, Bool.and_eq_true, beq_iff_eq,
      decide_eq_true_eq] at h
    obtain ⟨⟨hden, hlo⟩, hhi⟩ := h
    have hval := intCast_eq_of_den_one val hden
    have hnn : (0 : ℚ) ≤ val := by
      rw [← hval]
      exact_mod_cast hlo
    have hmax : max val 0 = val := max_eq_left hnn
    have htr : truncTowardZero val = val.num := by
      conv_lhs => rw [← hval]
      exact truncTowardZero_intCast val.num
    have hcast : (castToU32 val : ℤ) = val.num := by
      unfold castToU32
      rw [htr]
      omega
    have hq : ((castToU32 val : ℕ) : ℚ) = val := by
      conv_rhs => rw [← hval]
      exact_mod_cast hcast
    simp [applyValueToPartialReflect, hmax, hq]
  | u64 =>
    simp only [wellFormedNumericB, Bool.and_eq_true, beq_iff_eq,
      decide_eq_true_eq] at h
    obtain ⟨⟨hden, hlo⟩, hhi⟩ := h
    have hval := intCast_eq_of_den_one val hden
    have hnn : (0 : ℚ) ≤ val := by
      rw [← hval]
      exact_mod_cast hlo
    have hmax : max val 0 = val := max_eq_left hnn
    have htr : truncTowardZero val = val.num := by
      conv_lhs => rw [← hval]
      exact truncTowardZero_intCast val.num
    have hcast : (castToU64 val : ℤ) = val.num := by
      unfold castToU64
      rw [htr]
      omega
    have hq : ((castToU64 val : ℕ) : ℚ) = val := by
      conv_rhs => rw [← hval]
      exact_mod_cast hcast
    simp [applyValueToPartialReflect, hmax, hq]

/-- Traversal reports a numeric value exactly for numeric leaves (only the
reported value, not necessarily the stored one: i64/u64 reporting
rounds). -/
theorem tryExtractNumeric_num (v : ReflectValue) (q : ℚ)
    (h : tryExtractNumeric v = some q) :
    ∃ kind val, v = ReflectValue.num kind val := by
  cases v with
  | num kind val => exact ⟨kind, val, rfl⟩
  | prim s => simp [tryExtractNumeric] at h
  | struct tp fields => simp [tryExtractNumeric] at h
  | tupleStruct tp fields => simp [tryExtractNumeric] at h
  | tuple tp fields => simp [tryExtractNumeric] at h
  | enum tp vn payload => simp [tryExtractNumeric] at h
  | list n => simp [tryExtractNumeric] at h
  | array n => simp [tryExtractNumeric] at h
  | map n => simp [tryExtractNumeric] at h
  | set n => simp [tryExtractNumeric] at h

/-- On a leaf whose value satisfies the kind's machine-range invariant and
is exactly f64-representable, traversal reports the stored value itself:
the `f64RoundInt` conversion fixes integers of magnitude at most
`2 ^ 53`. -/
theorem tryExtractNumeric_exact (kind : NumericKind) (val : ℚ)
    (hwf : wellFormedNumericB kind val = true)
    (hex : f64ExactNumericB kind val = true) :
    tryExtractNumeric (.num kind val) = some val := by
  cases kind with
  | f32 => rfl
  | f64 => rfl
  | i32 => rfl
  | u32 => rfl
  | i64 =>
    simp only [wellFormedNumericB, Bool.and_eq_true, beq_iff_eq,
      decide_eq_true_eq] at hwf
    simp only [f64ExactNumericB, decide_eq_true_eq] at hex
    have hround : f64RoundInt val.num = val.num := by
      simp only [f64RoundInt]
      rw [if_pos hex]
    simp [tryExtractNumeric, hround, intCast_eq_of_den_one val hwf.1.1]
  | u64 =>
    simp only [wellFormedNumericB, Bool.and_eq_true, beq_iff_eq,
      decide_eq_true_eq] at hwf
    simp only [f64ExactNumericB, decide_eq_true_eq] at hex
    have hround : f64RoundInt val.num = val.num := by
      simp only [f64RoundInt]
      rw [if_pos hex]
    simp [tryExtractNumeric, hround, intCast_eq_of_den_one val hwf.1.1]

/-- Tuple-variant payload rows are never editable. -/
theorem extractEnumTupleRows_editable_none (fields : List ReflectValue) :
    ∀ i indent row, row ∈ extractEnumTupleRows fields i indent →
      row.editable = none := by
  induction fields with
  | nil =>
    intro i indent row h
    simp [extractEnumTupleRows] at h
  | cons v rest ih =>
    intro i indent row h
    cases hf : formatSimpleValue v with
    | none =>
      simp [extractEnumTupleRows, hf] at h
      exact ih _ _ _ h
    | some val =>
      simp [extractEnumTupleRows, hf] at h
      rcases h with h1 | h2
      · simp [h1]
      · exact ih _ _ _ h2

/-- Struct-variant payload rows are never editable. -/
theorem extractEnumStructRows_editable_none
    (fields : List (String × ReflectValue)) :
    ∀ indent row, row ∈ extractEnumStructRows fields indent →
      row.editable = none := by
  induction fields with
  | nil =>
    intro indent row h
    simp [extractEnumStructRows] at h
  | cons p rest ih =>
    obtain ⟨n, v⟩ := p
    intro indent row h
    cases hf : formatSimpleValue v with
    | none =>
      simp [extractEnumStructRows, hf] at h
      exact ih _ _ h
    | some val =>
      simp [extractEnumStructRows, hf] at h
      rcases h with h1 | h2
      · simp [h1]
      · exact ih _ _ h2

/-- Enum payload rows are never editable. -/
theorem extractEnumPayloadRows_editable_none (payload : VariantPayload)
    (indent : Nat) (row : ReflectedField)
    (h : row ∈ extractEnumPayloadRows payload indent) :
    row.editable = none := by
  cases payload with
  | unit => simp [extractEnumPayloadRows] at h
  | tupleFields fields =>
    exact extractEnumTupleRows_editable_none fields 0 indent row
      (by simpa [extractEnumPayloadRows] using h)
  | structFields fields =>
    exact extractEnumStructRows_editable_none fields indent row
      (by simpa [extractEnumPayloadRows] using h)

mutual
/-- Soundness of traversal-emitted edit paths on a well-formed value: every
editable row's locator extends the base path by a relative path that the
write-back navigator resolves successfully for any applied value; and when
every numeric leaf of the value is exactly f64-representable, replaying the
row's own reported value is the identity. -/
theorem extract_editable_sound :
    ∀ (v : ReflectValue), wellFormedB v = true →
    ∀ (indent : Nat) (names : SemanticFieldNames)
      (base : List FieldPathSegment) (row : ReflectedField)
      (info : EditableFieldInfo),
      row ∈ extractFieldsFromReflect v indent names base →
      row.editable = some info →
      ∃ rel, info.path = base ++ rel ∧
        (∀ nv, (setFieldValueRecursive v rel nv).1 = true) ∧
        (f64ExactB v = true →
          setFieldValueRecursive v rel info.numericValue = (true, v))
  | .struct tp fields => fun hwf indent names base row info hrow hed => by
    simp only [wellFormedB, Bool.and_eq_true, decide_eq_true_eq] at hwf
    have h := extractStructFields_editable_sound fields hwf.1 hwf.2
      indent names base row info
      (by simpa [extractFieldsFromReflect] using hrow) hed
    obtain ⟨name, rel2, hpath, hmem, hsucc, hidem⟩ := h
    refine ⟨.Named name :: rel2, hpath, ?_, ?_⟩
    · intro nv
      simp [setFieldValueRecursive, hsucc nv]
    · intro hex
      simp only [f64ExactB] at hex
      simp [setFieldValueRecursive, hidem hex]
  | .tupleStruct tp fields => fun hwf indent names base row info hrow hed => by
    simp only [wellFormedB] at hwf
    have h := extractTupleStructFields_editable_sound fields hwf
      tp 0 indent names base row info
      (by simpa [extractFieldsFromReflect] using hrow) hed
    obtain ⟨k, rel2, hpath, hsucc, hidem⟩ := h
    refine ⟨.Index k :: rel2, by simpa using hpath, ?_, ?_⟩
    · intro nv
      simp [setFieldValueRecursive, hsucc nv]
    · intro hex
      simp only [f64ExactB] at hex
      simp [setFieldValueRecursive, hidem hex]
  | .enum tp vn payload => fun hwf indent names base row info hrow hed => by
    simp only [extractFieldsFromReflect, List.mem_cons] at hrow
    rcases hrow with h1 | h2
    · rw [h1] at hed
      simp at hed
    · rw [extractEnumPayloadRows_editable_none payload indent row h2] at hed
      simp at hed
  | .num kind val => fun hwf indent names base row info hrow hed => by
    simp only [extractFieldsFromReflect, formatSimpleValue,
      List.mem_singleton] at hrow
    rw [hrow] at hed
    simp at hed
  | .prim s => fun hwf indent names base row info hrow hed => by
    simp only [extractFieldsFromReflect, formatSimpleValue,
      List.mem_singleton] at hrow
    rw [hrow] at hed
    simp at hed
  | .tuple tp fields => fun hwf indent names base row info hrow hed => by
    rcases hf : formatSimpleValue (ReflectValue.tuple tp fields) with _ | val
    · simp only [extractFieldsFromReflect, hf, List.not_mem_nil] at hrow
    · simp only [extractFieldsFromReflect, hf, List.mem_singleton] at hrow
      rw [hrow] at hed
      simp at hed
  | .list n => fun hwf indent names base row info hrow hed => by
    simp only [extractFieldsFromReflect, formatSimpleValue,
      List.mem_singleton] at hrow
    rw [hrow] at hed
    simp at hed
  | .array n => fun hwf indent names base row info hrow hed => by
    simp only [extractFieldsFromReflect, formatSimpleValue,
      List.mem_singleton] at hrow
    rw [hrow] at hed
    simp at hed
  | .map n => fun hwf indent names base row info hrow hed => by
    simp only [extractFieldsFromReflect, formatSimpleValue,
      List.mem_singleton] at hrow
    rw [hrow] at hed
    simp at hed
  | .set n => fun hwf indent names base row info hrow hed => by
    simp only [extractFieldsFromReflect, formatSimpleValue,
      List.mem_singleton] at hrow
    rw [hrow] at hed
    simp at hed

/-- As `extract_editable_sound`, for the rows the struct arm pushes: the
resolved field name is one of the list's names, and with pairwise-distinct
names the walk lands on the traversed field. -/
theorem extractStructFields_editable_sound :
    ∀ (fields : List (String × ReflectValue)),
      (fields.map Prod.fst).Nodup → wellFormedNamedB fields = true →
    ∀ (indent : Nat) (names : SemanticFieldNames)
      (base : List FieldPathSegment) (row : ReflectedField)
      (info : EditableFieldInfo),
      row ∈ extractStructFields fields indent names base →
      row.editable = some info →
      ∃ name rel2,
        info.path = base ++ (.Named name :: rel2) ∧
        name ∈ fields.map Prod.fst ∧
        (∀ nv, (setStructField fields name rel2 nv).1 = true) ∧
        (f64ExactNamedB fields = true →
          setStructField fields name rel2 info.numericValue =
            (true, fields))
  | [] => fun _ _ indent names base row info hrow hed => by
    simp [extractStructFields] at hrow
  | (n0, v0) :: rest => fun hnd hwfn indent names base row info hrow hed => by
    simp only [List.map_cons, List.nodup_cons] at hnd
    simp only [wellFormedNamedB, Bool.and_eq_true] at hwfn
    rcases hf : formatSimpleValue v0 with _ | val
    · -- complex head field: header row plus recursion into the field
      simp only [extractStructFields, hf, List.cons_append,
        List.mem_cons, List.mem_append] at hrow
      rcases hrow with h1 | h2 | h3
      · rw [h1] at hed
        simp at hed
      · have h := extract_editable_sound v0 hwfn.1 (indent + 1) names
          (base ++ [FieldPathSegment.Named n0]) row info h2 hed
        obtain ⟨rel, hpath, hsucc, hidem⟩ := h
        refine ⟨n0, rel, ?_, ?_, ?_, ?_⟩
        · simpa using hpath
        · simp
        · intro nv
          simp [setStructField, hsucc nv]
        · intro hex
          simp only [f64ExactNamedB, Bool.and_eq_true] at hex
          simp [setStructField, hidem hex.1]
      · have h := extractStructFields_editable_sound rest hnd.2 hwfn.2
          indent names base row info h3 hed
        obtain ⟨name, rel2, hpath, hmem, hsucc, hidem⟩ := h
        have hne : ¬ n0 = name := by
          intro hcontra
          exact hnd.1 (hcontra ▸ hmem)
        refine ⟨name, rel2, hpath, by simp [hmem], ?_, ?_⟩
        · intro nv
          simp [setStructField, hne, hsucc nv]
        · intro hex
          simp only [f64ExactNamedB, Bool.and_eq_true] at hex
          simp [setStructField, hne, hidem hex.2]
    · -- simple head field: one row, editable when the field is numeric
      simp only [extractStructFields, hf, List.singleton_append,
        List.mem_cons] at hrow
      rcases hrow with h1 | h3
      · rw [h1] at hed
        simp only [Option.map_eq_some'] at hed
        obtain ⟨q, hq, hinfo⟩ := hed
        obtain ⟨kind, val, hv0⟩ := tryExtractNumeric_num v0 q hq
        subst hv0
        refine ⟨n0, [], ?_, by simp, ?_, ?_⟩
        · rw [← hinfo]
        · intro nv
          simp [setStructField, setFieldValueRecursive,
            applyValue_num_succeeds]
        · intro hex
          simp only [f64ExactNamedB, Bool.and_eq_true, f64ExactB] at hex
          have hwf0 : wellFormedNumericB kind val = true := by
            simpa [wellFormedB] using hwfn.1
          have hqval : q = val :=
            Option.some.inj
              (hq.symm.trans (tryExtractNumeric_exact kind val hwf0 hex.1))
          have happ := applyValue_self kind val hwf0
          have hval : info.numericValue = q := by rw [← hinfo]
          simp [setStructField, setFieldValueRecursive, hval, hqval, happ]
      · have h := extractStructFields_editable_sound rest hnd.2 hwfn.2
          indent names base row info h3 hed
        obtain ⟨name, rel2, hpath, hmem, hsucc, hidem⟩ := h
        have hne : ¬ n0 = name := by
          intro hcontra
          exact hnd.1 (hcontra ▸ hmem)
        refine ⟨name, rel2, hpath, by simp [hmem], ?_, ?_⟩
        · intro nv
          simp [setStructField, hne, hsucc nv]
        · intro hex
          simp only [f64ExactNamedB, Bool.and_eq_true] at hex
          simp [setStructField, hne, hidem hex.2]

/-- As `extract_editable_sound`, for the rows the tuple-struct arm pushes
starting at running index `i`: the resolved index is `i + k` where `k`
indexes into the remaining field list. -/
theorem extractTupleStructFields_editable_sound :
    ∀ (fields : List ReflectValue), wellFormedListB fields = true →
    ∀ (tid : Option String) (i indent : Nat) (names : SemanticFieldNames)
      (base : List FieldPathSegment) (row : ReflectedField)
      (info : EditableFieldInfo),
      row ∈ extractTupleStructFields tid fields i indent names base →
      row.editable = some info →
      ∃ k rel2,
        info.path = base ++ (.Index (i + k) :: rel2) ∧
        (∀ nv, (setIndexedField fields k rel2 nv).1 = true) ∧
        (f64ExactListB fields = true →
          setIndexedField fields k rel2 info.numericValue =
            (true, fields))
  | [] => fun _ tid i indent names base row info hrow hed => by
    simp [extractTupleStructFields] at hrow
  | v0 :: rest => fun hwfl tid i indent names base row info hrow hed => by
    simp only [wellFormedListB, Bool.and_eq_true] at hwfl
    rcases hf : formatSimpleValue v0 with _ | val
    · -- complex head field: header row plus recursion into the field
      simp only [extractTupleStructFields, hf, List.cons_append,
        List.mem_cons, List.mem_append] at hrow
      rcases hrow with h1 | h2 | h3
      · rw [h1] at hed
        simp at hed
      · have h := extract_editable_sound v0 hwfl.1 (indent + 1) names
          (base ++ [FieldPathSegment.Index i]) row info h2 hed
        obtain ⟨rel, hpath, hsucc, hidem⟩ := h
        refine ⟨0, rel, ?_, ?_, ?_⟩
        · simpa using hpath
        · intro nv
          simp [setIndexedField, hsucc nv]
        · intro hex
          simp only [f64ExactListB, Bool.and_eq_true] at hex
          simp [setIndexedField, hidem hex.1]
      · have h := extractTupleStructFields_editable_sound rest hwfl.2
          tid (i + 1) indent names base row info h3 hed
        obtain ⟨k, rel2, hpath, hsucc, hidem⟩ := h
        refine ⟨k + 1, rel2, ?_, ?_, ?_⟩
        · have harith : i + (k + 1) = (i + 1) + k := by omega
          rw [harith]
          exact hpath
        · intro nv
          simp [setIndexedField, hsucc nv]
        · intro hex
          simp only [f64ExactListB, Bool.and_eq_true] at hex
          simp [setIndexedField, hidem hex.2]
    · -- simple head field: one row, editable when the field is numeric
      simp only [extractTupleStructFields, hf, List.singleton_append,
        List.mem_cons] at hrow
      rcases hrow with h1 | h3
      · rw [h1] at hed
        simp only [Option.map_eq_some'] at hed
        obtain ⟨q, hq, hinfo⟩ := hed
        obtain ⟨kind, val, hv0⟩ := tryExtractNumeric_num v0 q hq
        subst hv0
        refine ⟨0, [], ?_, ?_, ?_⟩
        · rw [← hinfo]
          simp
        · intro nv
          simp [setIndexedField, setFieldValueRecursive,
            applyValue_num_succeeds]
        · intro hex
          simp only [f64ExactListB, Bool.and_eq_true, f64ExactB] at hex
          have hwf0 : wellFormedNumericB kind val = true := by
            simpa [wellFormedB] using hwfl.1
          have hqval : q = val :=
            Option.some.inj
              (hq.symm.trans (tryExtractNumeric_exact kind val hwf0 hex.1))
          have happ := applyValue_self kind val hwf0
          have hval : info.numericValue = q := by rw [← hinfo]
          simp [setIndexedField, setFieldValueRecursive, hval, hqval, happ]
      · have h := extractTupleStructFields_editable_sound rest hwfl.2
          tid (i + 1) indent names base row info h3 hed
        obtain ⟨k, rel2, hpath, hsucc, hidem⟩ := h
        refine ⟨k + 1, rel2, ?_, ?_, ?_⟩
        · have harith : i + (k + 1) = (i + 1) + k := by omega
          rw [harith]
          exact hpath
        · intro nv
          simp [setIndexedField, hsucc nv]
        · intro hex
          simp only [f64ExactListB, Bool.and_eq_true] at hex
          simp [setIndexedField, hidem hex.2]
end

/-- C1: every `LeafEdit` row that `extract_fields_from_reflect` produces
from a (well-formed) reflected component value carries a locator that
`set_field_value_recursive` resolves successfully on the same unmodified
value, for any applied value — and by
`applyValueToPartialReflect_succeeds_iff`, success means the walk reached a
leaf of one of the six recognized numeric kinds. -/
theorem c1_path_round_trip (root : ReflectValue)
    (names : SemanticFieldNames) (row : ReflectedField)
    (info : EditableFieldInfo) (nv : ℚ)
    (hwf : wellFormedB root = true)
    (hrow : row ∈ extractFieldsFromReflect root 0 names [])
    (hed : row.editable = some info) :
    (setFieldValueRecursive root info.path nv).1 = true := by
  obtain ⟨rel, hpath, hsucc, _⟩ :=
    extract_editable_sound root hwf 0 names [] row info hrow hed
  rw [hpath, List.nil_append]
  exact hsucc nv

/-- Witness for C1 at a concrete one-field component. -/
theorem c1_path_round_trip_witness :
    (setFieldValueRecursive
      (.struct none [("health", .num .f32 5)]) [.Named "health"] 7).1 =
      true :=
  c1_path_round_trip (.struct none [("health", .num .f32 5)])
    SemanticFieldNames.new
    { name := "health", value := numericDebugString .f32 5, indent := 0,
      editable := some { numericValue := 5, path := [.Named "health"] } }
    { numericValue := 5, path := [.Named "health"] } 7
    (by decide) (by decide) rfl

/-- C8 (amended): replaying an editable row's own reported numeric value
through the write-back navigator returns the component value unchanged, for
any well-formed component all of whose numeric leaves are exactly
f64-representable (always the case for f32, f64, i32, u32; for i64/u64 when
the magnitude is at most `2 ^ 53`).  Beyond that bound, traversal's
i64/u64→f64 conversion rounds the reported value and a no-op edit stores
the rounded value — see the counterexample. -/
theorem c8_noop_edit_idempotent (root : ReflectValue)
    (names : SemanticFieldNames) (row : ReflectedField)
    (info : EditableFieldInfo)
    (hwf : wellFormedB root = true)
    (hex : f64ExactB root = true)
    (hrow : row ∈ extractFieldsFromReflect root 0 names [])
    (hed : row.editable = some info) :
    setFieldValueRecursive root info.path info.numericValue =
      (true, root) := by
  obtain ⟨rel, hpath, _, hidem⟩ :=
    extract_editable_sound root hwf 0 names [] row info hrow hed
  rw [hpath, List.nil_append]
  exact hidem hex

/-- Witness for C8 at a concrete i32 leaf. -/
theorem c8_noop_edit_idempotent_witness :
    setFieldValueRecursive (.struct none [("ammo", .num .i32 3)])
      [.Named "ammo"] 3 =
      (true, .struct none [("ammo", .num .i32 3)]) :=
  c8_noop_edit_idempotent (.struct none [("ammo", .num .i32 3)])
    SemanticFieldNames.new
    { name := "ammo", value := numericDebugString .i32 3, indent := 0,
      editable := some { numericValue := 3, path := [.Named "ammo"] } }
    { numericValue := 3, path := [.Named "ammo"] }
    (by decide) (by decide) (by decide) rfl

/-- Rust's `as f64` conversion rounds `2 ^ 53 + 1` down to `2 ^ 53` (the
tie between the neighbouring doubles `2 ^ 53` and `2 ^ 53 + 2` goes to the
even significand). -/
theorem f64RoundInt_pow53_succ :
    f64RoundInt 9007199254740993 = 9007199254740992 := by
  have hlog : Nat.log2 9007199254740993 = 53 := by
    rw [Nat.log2_eq_log_two]
    exact Nat.log_eq_of_pow_le_of_lt_pow (by norm_num) (by norm_num)
  have habs : (9007199254740993 : ℤ).natAbs = (9007199254740993 : ℕ) := rfl
  simp only [f64RoundInt]
  rw [habs, hlog]
  norm_num

/-- Counterexample to C8 as stated: on an i64 leaf holding `2 ^ 53 + 1`,
traversal reports the rounded value `2 ^ 53` (`try_extract_numeric`'s
`*val as f64`), and applying that reported value back through the
write-back navigator stores `2 ^ 53` — the serialized state changes, so
the no-op edit is not idempotent for i64/u64 values above `2 ^ 53`. -/
theorem c8_large_i64_not_idempotent_cex :
    tryExtractNumeric (.num .i64 (9007199254740993 : ℚ)) =
      some (9007199254740992 : ℚ)
    ∧ setFieldValueRecursive
        (.struct none [("t", .num .i64 (9007199254740993 : ℚ))])
        [.Named "t"] (9007199254740992 : ℚ) =
        (true, .struct none [("t", .num .i64 (9007199254740992 : ℚ))])
    ∧ ReflectValue.num .i64 (9007199254740992 : ℚ) ≠
        ReflectValue.num .i64 (9007199254740993 : ℚ) := by
  have hnum : (9007199254740993 : ℚ).num = 9007199254740993 := rfl
  have hcast : castToI64 (9007199254740992 : ℚ) = 9007199254740992 := by
    have htr : truncTowardZero (9007199254740992 : ℚ) =
        9007199254740992 := by
      unfold truncTowardZero
      rw [if_pos (by norm_num)]
      norm_num
    rw [castToI64, htr]
    norm_num
  refine ⟨?_, ?_, ?_⟩
  · simp only [tryExtractNumeric, hnum, f64RoundInt_pow53_succ]
    norm_num
  · simp [setFieldValueRecursive, setStructField,
      applyValueToPartialReflect, hcast]
  · intro hcontra
    have : (9007199254740992 : ℚ) = 9007199254740993 := by
      injection hcontra
    norm_num at this

/-- C2: at the terminal node, every numeric kind accepts the write with the
source's conversion (truncation toward the representable range; unsigned
targets clamp negatives to zero first) and any non-numeric leaf rejects it.
Concretely: 5.9 into a u32 leaf stores 5, −3.0 into a u32 or u64 leaf
stores 0, and an f32 leaf receives the value exactly (under the
exact-rational embedding of floats). -/
theorem c2_terminal_coercion (v nv : ℚ) (s : String) (n : Nat) :
    applyValueToPartialReflect (.num .u32 v) (59 / 10) =
      (true, .num .u32 5)
    ∧ applyValueToPartialReflect (.num .u32 v) (-3) = (true, .num .u32 0)
    ∧ applyValueToPartialReflect (.num .u64 v) (-3) = (true, .num .u64 0)
    ∧ applyValueToPartialReflect (.num .f32 v) nv = (true, .num .f32 nv)
    ∧ (∀ kind w, (applyValueToPartialReflect (.num kind w) nv).1 = true)
    ∧ (applyValueToPartialReflect (.prim s) nv).1 = false
    ∧ (applyValueToPartialReflect (.list n) nv).1 = false := by
  have htr59 : truncTowardZero (59 / 10 : ℚ) = 5 := by
    unfold truncTowardZero
    rw [if_pos (by norm_num)]
    norm_num
  have hc59 : castToU32 (max (59 / 10 : ℚ) 0) = 5 := by
    rw [max_eq_left (by norm_num), castToU32, htr59,
      min_eq_right (by norm_num), max_eq_right (by norm_num)]
    rfl
  have htr0 : truncTowardZero (0 : ℚ) = 0 := by
    unfold truncTowardZero
    rw [if_pos le_rfl]
    norm_num
  have hm3 : max (-3 : ℚ) 0 = 0 := max_eq_right (by norm_num)
  have hc0u32 : castToU32 (0 : ℚ) = 0 := by
    rw [castToU32, htr0, min_eq_right (by norm_num),
      max_eq_right (by norm_num)]
    rfl
  have hc0u64 : castToU64 (0 : ℚ) = 0 := by
    rw [castToU64, htr0, min_eq_right (by norm_num),
      max_eq_right (by norm_num)]
    rfl
  refine ⟨?_, ?_, ?_, ?_, fun kind w => applyValue_num_succeeds kind w nv,
    rfl, rfl⟩
  · simp [applyValueToPartialReflect, hc59]
  · simp [applyValueToPartialReflect, hm3, hc0u32]
  · simp [applyValueToPartialReflect, hm3, hc0u64]
  · simp [applyValueToPartialReflect, castToF32]

/-- C10: a `FieldPath` with an empty segment list is accepted: the write
coerces directly at the component root, succeeding exactly when the root
itself is numeric; otherwise it returns `false`, leaves the value
untouched, and the write-back pass leaves the store unchanged. -/
theorem c10_empty_path (v : ReflectValue) (nv : ℚ) :
    setFieldValueRecursive v [] nv = applyValueToPartialReflect v nv
    ∧ ((setFieldValueRecursive v [] nv).1 = true ↔
        ∃ kind val, v = ReflectValue.num kind val)
    ∧ ((setFieldValueRecursive v [] nv).1 = false →
        (setFieldValueRecursive v [] nv).2 = v)
    ∧ (∀ (world : Store) (entity : Nat) (tid : String),
        getReflectedComponentMut world entity tid = some v →
        (applyValueToPartialReflect v nv).1 = false →
        applyOneChange world
          { source := 0,
            fieldPath :=
              { entity := entity, componentTypeId := tid, path := [] },
            newValue := nv } = world) := by
  have hdef : setFieldValueRecursive v [] nv =
      applyValueToPartialReflect v nv := by
    simp [setFieldValueRecursive]
  refine ⟨hdef, ?_, setFieldValueRecursive_fail_eq v [] nv, ?_⟩
  · rw [hdef]
    exact applyValueToPartialReflect_succeeds_iff v nv
  · intro world entity tid hget hfalse
    have hfix : (setFieldValueRecursive v [] nv).2 = v :=
      setFieldValueRecursive_fail_eq v [] nv (by rw [hdef]; exact hfalse)
    simp only [applyOneChange, hget, hfix]
    exact setStoredComponent_of_found world entity tid v hget

/-- C3: a queued change that fails to resolve — missing component, or any
path-resolution or coercion failure inside `set_field_value_recursive` —
leaves the store exactly as it was, and the write-back pass goes on to
apply the remaining changes of the batch. -/
theorem c3_failed_change_noop (world : Store) (change : DragValueChanged)
    (rest : List DragValueChanged)
    (hfail :
      getReflectedComponentMut world change.fieldPath.entity
          change.fieldPath.componentTypeId = none
      ∨ ∃ v, getReflectedComponentMut world change.fieldPath.entity
            change.fieldPath.componentTypeId = some v
          ∧ (setFieldValueRecursive v change.fieldPath.path
              change.newValue).1 = false) :
    applyOneChange world change = world
    ∧ applyPendingValueChanges world (change :: rest) =
        applyPendingValueChanges (applyOneChange world change) rest := by
  have hnoop : applyOneChange world change = world := by
    rcases hfail with hnone | ⟨v, hsome, hfalse⟩
    · simp [applyOneChange, hnone]
    · have h2 := setFieldValueRecursive_fail_eq v change.fieldPath.path
        change.newValue hfalse
      simp only [applyOneChange, hsome, h2]
      exact setStoredComponent_of_found world _ _ v hsome
  exact ⟨hnoop, rfl⟩

/-- Witness for C3: a change aimed at an empty store resolves nothing and
is a no-op. -/
theorem c3_failed_change_noop_witness :
    applyOneChange []
      { source := 0,
        fieldPath := { entity := 0, componentTypeId := "T", path := [] },
        newValue := 1 } = []
    ∧ applyPendingValueChanges []
        [{ source := 0,
           fieldPath := { entity := 0, componentTypeId := "T", path := [] },
           newValue := 1 }] =
      applyPendingValueChanges
        (applyOneChange []
          { source := 0,
            fieldPath := { entity := 0, componentTypeId := "T", path := [] },
            newValue := 1 }) [] :=
  c3_failed_change_noop []
    { source := 0,
      fieldPath := { entity := 0, componentTypeId := "T", path := [] },
      newValue := 1 } [] (Or.inl rfl)

/-- C4 (amended): during path walking, a `Named(n)` step resolves a field
exactly when the current shape is Struct and `n` names an existing field;
an `Index(i)` step resolves exactly when the shape is TupleStruct or Tuple
and `i` is in range — Struct fields are not addressable by index.  The walk
as a whole succeeds exactly when the step resolves and the rest of the path
succeeds on the resolved field; any failure is non-fatal and leaves the
value untouched. -/
theorem c4_step_resolution (v : ReflectValue) (seg : FieldPathSegment)
    (rest : List FieldPathSegment) (nv : ℚ) :
    ((setFieldValueRecursive v (seg :: rest) nv).1 = true ↔
      ∃ fv, stepGet v seg = some fv ∧
        (setFieldValueRecursive fv rest nv).1 = true)
    ∧ (∀ name, (∃ fv, stepGet v (.Named name) = some fv) ↔
        ∃ tp fields, v = ReflectValue.struct tp fields ∧
          name ∈ fields.map Prod.fst)
    ∧ (∀ idx, (∃ fv, stepGet v (.Index idx) = some fv) ↔
        ∃ tp fields,
          (v = ReflectValue.tupleStruct tp fields ∨
            v = ReflectValue.tuple tp fields) ∧ idx < fields.length)
    ∧ ((setFieldValueRecursive v (seg :: rest) nv).1 = false →
        (setFieldValueRecursive v (seg :: rest) nv).2 = v) := by
  refine ⟨?_, ?_, ?_, setFieldValueRecursive_fail_eq v (seg :: rest) nv⟩
  · cases v with
    | struct tp fields =>
      cases seg with
      | Named name =>
        simpa [setFieldValueRecursive, stepGet] using
          setStructField_succeeds_iff fields name rest nv
      | Index idx => simp [setFieldValueRecursive, stepGet]
    | tupleStruct tp fields =>
      cases seg with
      | Named name => simp [setFieldValueRecursive, stepGet]
      | Index idx =>
        simpa [setFieldValueRecursive, stepGet] using
          setIndexedField_succeeds_iff fields idx rest nv
    | tuple tp fields =>
      cases seg with
      | Named name => simp [setFieldValueRecursive, stepGet]
      | Index idx =>
        simpa [setFieldValueRecursive, stepGet] using
          setIndexedField_succeeds_iff fields idx rest nv
    | num kind val => cases seg <;> simp [setFieldValueRecursive, stepGet]
    | prim s => cases seg <;> simp [setFieldValueRecursive, stepGet]
    | enum tp vn payload =>
      cases seg <;> simp [setFieldValueRecursive, stepGet]
    | list n => cases seg <;> simp [setFieldValueRecursive, stepGet]
    | array n => cases seg <;> simp [setFieldValueRecursive, stepGet]
    | map n => cases seg <;> simp [setFieldValueRecursive, stepGet]
    | set n => cases seg <;> simp [setFieldValueRecursive, stepGet]
  · intro name
    cases v with
    | struct tp fields =>
      constructor
      · rintro ⟨fv, hfv⟩
        simp only [stepGet, Option.map_eq_some'] at hfv
        obtain ⟨p, hfind, hp⟩ := hfv
        have hmem := List.mem_of_find?_eq_some hfind
        have hname : p.1 = name := by
          have := List.find?_some hfind
          simpa using this
        exact ⟨tp, fields, rfl, hname ▸ List.mem_map_of_mem Prod.fst hmem⟩
      · rintro ⟨tp2, fields2, heq, hmem⟩
        cases heq
        simp only [List.mem_map] at hmem
        obtain ⟨p, hp, hname⟩ := hmem
        have hsome : (fields.find? fun q => q.1 == name).isSome := by
          rw [List.find?_isSome]
          exact ⟨p, hp, by simp [hname]⟩
        obtain ⟨q, hq⟩ := Option.isSome_iff_exists.mp hsome
        exact ⟨q.2, by simp [stepGet, hq]⟩
    | tupleStruct tp fields => simp [stepGet]
    | tuple tp fields => simp [stepGet]
    | num kind val => simp [stepGet]
    | prim s => simp [stepGet]
    | enum tp vn payload => simp [stepGet]
    | list n => simp [stepGet]
    | array n => simp [stepGet]
    | map n => simp [stepGet]
    | set n => simp [stepGet]
  · intro idx
    cases v with
    | struct tp fields => simp [stepGet]
    | tupleStruct tp fields =>
      constructor
      · rintro ⟨fv, hfv⟩
        simp only [stepGet] at hfv
        refine ⟨tp, fields, Or.inl rfl, ?_⟩
        by_contra hlen
        rw [List.get?_eq_none.mpr (by omega)] at hfv
        exact Option.noConfusion hfv
      · rintro ⟨tp2, fields2, heq | heq, hlen⟩ <;> cases heq
        have hne : fields.get? idx ≠ none := by
          rw [Ne, List.get?_eq_none]
          omega
        obtain ⟨fv, hfv⟩ := Option.ne_none_iff_exists'.mp hne
        exact ⟨fv, by simpa [stepGet, List.get?_eq_getElem?] using hfv⟩
    | tuple tp fields =>
      constructor
      · rintro ⟨fv, hfv⟩
        simp only [stepGet] at hfv
        refine ⟨tp, fields, Or.inr rfl, ?_⟩
        by_contra hlen
        rw [List.get?_eq_none.mpr (by omega)] at hfv
        exact Option.noConfusion hfv
      · rintro ⟨tp2, fields2, heq | heq, hlen⟩ <;> cases heq
        have hne : fields.get? idx ≠ none := by
          rw [Ne, List.get?_eq_none]
          omega
        obtain ⟨fv, hfv⟩ := Option.ne_none_iff_exists'.mp hne
        exact ⟨fv, by simpa [stepGet, List.get?_eq_getElem?] using hfv⟩
    | num kind val => simp [stepGet]
    | prim s => simp [stepGet]
    | enum tp vn payload => simp [stepGet]
    | list n => simp [stepGet]
    | array n => simp [stepGet]
    | map n => simp [stepGet]
    | set n => simp [stepGet]

/-- Counterexample to C4 as stated: the claim admits `Index(i)` on a Struct
shape, but the code's Struct arm only accepts `Named` segments, so an
in-range index against a one-field struct fails. -/
theorem c4_index_on_struct_cex :
    (setFieldValueRecursive (.struct none [("a", .num .f32 1)])
      [.Index 0] 5).1 = false
    ∧ 0 < ([("a", ReflectValue.num .f32 1)]).length := ⟨rfl, by decide⟩

/-- C5 (amended): while dragging, every pointer move emits a change equal
to `start_value + horizontal_delta * drag_speed`, clamped below by `min`
and above by `max` when configured.  Concretely, from `start_value = 10`
with `drag_speed = 0.1`, a `+50` px delta emits `15.0`; with `min = 12`
configured, a `+10` px delta (raw value `11.0`) emits the clamped `12.0`. -/
theorem c5_drag_move (entity : Nat) (dv : DragValue)
    (st : DragValueDragState) (deltaX : ℚ) (h : st.dragging = true) :
    (dv.min = none → dv.max = none →
      dragValueOnDrag entity dv st deltaX =
        some { source := entity, fieldPath := dv.fieldPath,
               newValue := st.startValue + deltaX * dv.dragSpeed })
    ∧ (∀ mn, dv.min = some mn → dv.max = none →
        dragValueOnDrag entity dv st deltaX =
          some { source := entity, fieldPath := dv.fieldPath,
                 newValue :=
                   max (st.startValue + deltaX * dv.dragSpeed) mn })
    ∧ (∀ mn mx, dv.min = some mn → dv.max = some mx →
        dragValueOnDrag entity dv st deltaX =
          some { source := entity, fieldPath := dv.fieldPath,
                 newValue :=
                   min (max (st.startValue + deltaX * dv.dragSpeed) mn)
                     mx })
    ∧ dragValueOnDrag 1
        { fieldPath := { entity := 0, componentTypeId := "T", path := [] },
          dragSpeed := 1 / 10, precision := 2, min := none, max := none }
        { dragging := true, startValue := 10, editing := false,
          editBuffer := "", lastClickTime := none, originalValue := 10 }
        50 =
        some { source := 1,
               fieldPath :=
                 { entity := 0, componentTypeId := "T", path := [] },
               newValue := 15 }
    ∧ dragValueOnDrag 1
        { fieldPath := { entity := 0, componentTypeId := "T", path := [] },
          dragSpeed := 1 / 10, precision := 2, min := some 12,
          max := none }
        { dragging := true, startValue := 10, editing := false,
          editBuffer := "", lastClickTime := none, originalValue := 10 }
        10 =
        some { source := 1,
               fieldPath :=
                 { entity := 0, componentTypeId := "T", path := [] },
               newValue := 12 } := by
  refine ⟨?_, ?_, ?_, ?_, ?_⟩
  · intro hmin hmax
    simp [dragValueOnDrag, h, hmin, hmax]
  · intro mn hmin hmax
    simp [dragValueOnDrag, h, hmin, hmax]
  · intro mn mx hmin hmax
    simp [dragValueOnDrag, h, hmin, hmax]
  · simp [dragValueOnDrag]
    norm_num
  · simp [dragValueOnDrag]
    norm_num

/-- Witness for C5: the unclamped drag instance, via the theorem. -/
theorem c5_drag_move_witness :
    dragValueOnDrag 1
      { fieldPath := { entity := 0, componentTypeId := "T", path := [] },
        dragSpeed := 1 / 10, precision := 2, min := none, max := none }
      { dragging := true, startValue := 10, editing := false,
        editBuffer := "", lastClickTime := none, originalValue := 10 }
      50 =
      some { source := 1,
             fieldPath := { entity := 0, componentTypeId := "T", path := [] },
             newValue := 15 } :=
  (c5_drag_move 1
    { fieldPath := { entity := 0, componentTypeId := "T", path := [] },
      dragSpeed := 1 / 10, precision := 2, min := none, max := none }
    { dragging := true, startValue := 10, editing := false,
      editBuffer := "", lastClickTime := none, originalValue := 10 }
    50 rfl).2.2.2.1

/-- Counterexample to C5 as stated: with `start_value = 10`,
`drag_speed = 0.1`, delta `+50` px and `min = 12` configured, the claim
says the emitted value clamps to `12.0`; the code emits `15.0` (a lower
bound does not clamp a value above it). -/
theorem c5_min_no_clamp_cex :
    dragValueOnDrag 1
      { fieldPath := { entity := 0, componentTypeId := "T", path := [] },
        dragSpeed := 1 / 10, precision := 2, min := some 12, max := none }
      { dragging := true, startValue := 10, editing := false,
        editBuffer := "", lastClickTime := none, originalValue := 10 }
      50 =
      some { source := 1,
             fieldPath := { entity := 0, componentTypeId := "T", path := [] },
             newValue := 15 }
    ∧ (15 : ℚ) ≠ 12 := by
  constructor
  · simp [dragValueOnDrag]
    norm_num
  · norm_num

/-- C6: on a component whose single field `translation` holds a
3-component float vector, traversal yields exactly three editable rows,
labeled `x`, `y`, `z` by the semantic-naming overlay, indented under the
`translation` header, carrying the locators
`[Named "translation", Index 0|1|2]`; and writing 42 through the `y`
locator updates only the `y` component. -/
theorem c6_translation_scenario (x y z : ℚ) :
    ((extractFieldsFromReflect (translationComponent x y z) 0
        SemanticFieldNames.new []).filterMap fun row =>
        row.editable.map fun info => (row.name, row.indent, info)) =
      [("x", 1, { numericValue := x,
                  path := [.Named "translation", .Index 0] }),
       ("y", 1, { numericValue := y,
                  path := [.Named "translation", .Index 1] }),
       ("z", 1, { numericValue := z,
                  path := [.Named "translation", .Index 2] })]
    ∧ setFieldValueRecursive (translationComponent x y z)
        [.Named "translation", .Index 1] 42 =
        (true, translationComponent x 42 z) :=
  ⟨rfl, rfl⟩

/-- The tuple-variant payload rows, as a filter over the indexed fields:
exactly the simply-formattable fields appear. -/
theorem extractEnumTupleRows_eq (fields : List ReflectValue)
    (i indent : Nat) :
    extractEnumTupleRows fields i indent =
      (fields.enumFrom i).filterMap fun p =>
        (formatSimpleValue p.2).map fun val =>
          { name := "." ++ toString p.1, value := val, indent := indent + 1,
            editable := none } := by
  induction fields generalizing i with
  | nil => simp [extractEnumTupleRows]
  | cons v rest ih =>
    cases hf : formatSimpleValue v with
    | none => simp [extractEnumTupleRows, hf, List.enumFrom, ih]
    | some val => simp [extractEnumTupleRows, hf, List.enumFrom, ih]

/-- The struct-variant payload rows, as a filter over the named fields:
exactly the simply-formattable fields appear. -/
theorem extractEnumStructRows_eq (fields : List (String × ReflectValue))
    (indent : Nat) :
    extractEnumStructRows fields indent =
      fields.filterMap fun p =>
        (formatSimpleValue p.2).map fun val =>
          { name := p.1, value := val, indent := indent + 1,
            editable := none } := by
  induction fields with
  | nil => simp [extractEnumStructRows]
  | cons p rest ih =>
    obtain ⟨n, v⟩ := p
    cases hf : formatSimpleValue v with
    | none => simp [extractEnumStructRows, hf, ih]
    | some val => simp [extractEnumStructRows, hf, ih]

/-- C7 (amended): traversal of an Enum value always starts with a
`variant` row carrying the active variant's name, none of its rows is
editable, and for Tuple- or Struct-shaped variants the remaining rows are
exactly the payload fields whose values format simply, indented one level;
payload fields with complex shapes are omitted entirely. -/
theorem c7_enum_rows (tp : Option String) (vn : String)
    (payload : VariantPayload) (indent : Nat)
    (names : SemanticFieldNames) (base : List FieldPathSegment) :
    (extractFieldsFromReflect (.enum tp vn payload) indent names
        base).head? =
      some { name := "variant", value := vn, indent := indent,
             editable := none }
    ∧ (∀ row ∈ extractFieldsFromReflect (.enum tp vn payload) indent names
          base, row.editable = none)
    ∧ (extractFieldsFromReflect (.enum tp vn payload) indent names
        base).tail =
        (match payload with
         | .unit => []
         | .tupleFields fs =>
           fs.enum.filterMap fun p =>
             (formatSimpleValue p.2).map fun val =>
               { name := "." ++ toString p.1, value := val,
                 indent := indent + 1, editable := none }
         | .structFields fs =>
           fs.filterMap fun p =>
             (formatSimpleValue p.2).map fun val =>
               { name := p.1, value := val, indent := indent + 1,
                 editable := none }) := by
  refine ⟨rfl, ?_, ?_⟩
  · intro row hrow
    simp only [extractFieldsFromReflect, List.mem_cons] at hrow
    rcases hrow with h1 | h2
    · simp [h1]
    · exact extractEnumPayloadRows_editable_none payload indent row h2
  · cases payload with
    | unit => rfl
    | tupleFields fs =>
      simpa [extractFieldsFromReflect, extractEnumPayloadRows, List.enum]
        using extractEnumTupleRows_eq fs 0 indent
    | structFields fs =>
      simpa [extractFieldsFromReflect, extractEnumPayloadRows]
        using extractEnumStructRows_eq fs indent

/-- Counterexample to C7 as stated: a tuple variant with one payload field
of complex (struct) shape produces only the `variant` row — the payload
field gets no row at all, where the claim promises one per payload
field. -/
theorem c7_complex_payload_dropped_cex :
    extractFieldsFromReflect
      (.enum none "Complex"
        (.tupleFields [.struct none [("inner", .num .f32 1)]]))
      0 SemanticFieldNames.new [] =
      [{ name := "variant", value := "Complex", indent := 0,
         editable := none }] := rfl

/-- C9: Escape during text editing rewrites every `Text` child to the
formatted `original_value`, exits editing, emits no change event (so the
store is never touched by the cancelled edit), and clears input focus;
exiting by Enter also clears input focus. -/
theorem c9_escape_cancels (parse : String → Option ℚ) (entity : Nat)
    (dv : DragValue) (st : DragValueDragState)
    (texts : List RenderedText) (focus : Option Nat)
    (h : st.editing = true) :
    (dragValueOnKeyboardInput parse entity dv st texts focus .Escape
        true).emitted = []
    ∧ (dragValueOnKeyboardInput parse entity dv st texts focus .Escape
        true).texts =
        texts.map (fun _ =>
          RenderedText.formattedValue st.originalValue dv.precision)
    ∧ (dragValueOnKeyboardInput parse entity dv st texts focus .Escape
        true).dragState.editing = false
    ∧ (dragValueOnKeyboardInput parse entity dv st texts focus .Escape
        true).inputFocus = none
    ∧ (dragValueOnKeyboardInput parse entity dv st texts focus .Enter
        true).inputFocus = none := by
  refine ⟨?_, ?_, ?_, ?_, ?_⟩
  · simp [dragValueOnKeyboardInput, h, exitEditMode]
  · simp [dragValueOnKeyboardInput, h, exitEditMode]
  · simp [dragValueOnKeyboardInput, h, exitEditMode]
  · simp [dragValueOnKeyboardInput, h, exitEditMode]
  · cases hp : parse st.editBuffer <;>
      simp [dragValueOnKeyboardInput, h, exitEditMode, hp]

/-- Witness for C9 at a concrete editing widget. -/
theorem c9_escape_cancels_witness :
    (dragValueOnKeyboardInput (fun _ => none) 2
        { fieldPath := { entity := 0, componentTypeId := "T", path := [] },
          dragSpeed := 1 / 10, precision := 2, min := none, max := none }
        { dragging := false, startValue := 0, editing := true,
          editBuffer := "42", lastClickTime := none, originalValue := 7 }
        [RenderedText.bufferWithCursor "42"] (some 2) .Escape
        true).emitted = []
    ∧ (dragValueOnKeyboardInput (fun _ => none) 2
        { fieldPath := { entity := 0, componentTypeId := "T", path := [] },
          dragSpeed := 1 / 10, precision := 2, min := none, max := none }
        { dragging := false, startValue := 0, editing := true,
          editBuffer := "42", lastClickTime := none, originalValue := 7 }
        [RenderedText.bufferWithCursor "42"] (some 2) .Escape
        true).texts = [RenderedText.formattedValue 7 2]
    ∧ (dragValueOnKeyboardInput (fun _ => none) 2
        { fieldPath := { entity := 0, componentTypeId := "T", path := [] },
          dragSpeed := 1 / 10, precision := 2, min := none, max := none }
        { dragging := false, startValue := 0, editing := true,
          editBuffer := "42", lastClickTime := none, originalValue := 7 }
        [RenderedText.bufferWithCursor "42"] (some 2) .Escape
        true).dragState.editing = false
    ∧ (dragValueOnKeyboardInput (fun _ => none) 2
        { fieldPath := { entity := 0, componentTypeId := "T", path := [] },
          dragSpeed := 1 / 10, precision := 2, min := none, max := none }
        { dragging := false, startValue := 0, editing := true,
          editBuffer := "42", lastClickTime := none, originalValue := 7 }
        [RenderedText.bufferWithCursor "42"] (some 2) .Escape
        true).inputFocus = none
    ∧ (dragValueOnKeyboardInput (fun _ => none) 2
        { fieldPath := { entity := 0, componentTypeId := "T", path := [] },
          dragSpeed := 1 / 10, precision := 2, min := none, max := none }
        { dragging := false, startValue := 0, editing := true,
          editBuffer := "42", lastClickTime := none, originalValue := 7 }
        [RenderedText.bufferWithCursor "42"] (some 2) .Enter
        true).inputFocus = none :=
  c9_escape_cancels (fun _ => none) 2
    { fieldPath := { entity := 0, componentTypeId := "T", path := [] },
      dragSpeed := 1 / 10, precision := 2, min := none, max := none }
    { dragging := false, startValue := 0, editing := true,
      editBuffer := "42", lastClickTime := none, originalValue := 7 }
    [RenderedText.bufferWithCursor "42"] (some 2) rfl

end FeathersInspector
